import Mathlib

set_option autoImplicit false

namespace ExtWS

/-- A websocket handle as observed by `Ext.ux.WebSocketManager`. The manager
reads the handle's `url` property as its registry key, queries `isReady ()`
before a send, and invokes `send (event, message)` and `disconnect ()` on it.
The `ready` field is the value `isReady ()` reports; `tag` distinguishes
otherwise identical handles (e.g. two sockets created for the same url). -/
structure Handle where
  url : String
  ready : Bool
  tag : Nat := 0
  deriving DecidableEq

/-- The `isReady ()` capability of a handle. -/
def Handle.isReady (h : Handle) : Bool :=
  h.ready

/-- The state of the manager's `wsList` (`Ext.util.HashMap`): key-to-handle
entries in insertion order. The hash map is backed by a JavaScript object, so
keys are unique in every state the manager produces; overwriting a key keeps
its original position, which this model mirrors. -/
abbrev WsList := List (String × Handle)

/-- Model of `Ext.util.HashMap.containsKey`. -/
def containsKey (m : WsList) (k : String) : Bool :=
  m.any (fun p => p.1 == k)

/-- Model of `Ext.util.HashMap.get`: the handle registered under `k`, or
`none` (JavaScript `undefined`) when the key is absent. -/
def hmGet (m : WsList) (k : String) : Option Handle :=
  (m.find? (fun p => p.1 == k)).map (fun p => p.2)

/-- In-place overwrite of the entry for key `k`, used by the model of
`Ext.util.HashMap.add` on an existing key: the entry keyed `k` gets the new
value while keeping its position, every other entry is untouched. -/
def updEntry (k : String) (v : Handle) (p : String × Handle) : String × Handle :=
  if p.1 == k then (k, v) else p

/-- Model of `Ext.util.HashMap.add`: an existing key is overwritten in place
(Ext delegates to `replace`); a new key is appended. -/
def hmAdd (m : WsList) (k : String) (v : Handle) : WsList :=
  if containsKey m k then m.map (updEntry k v)
  else m ++ [(k, v)]

/-- Model of `Ext.util.HashMap.removeAtKey`: deletes the entry for `k` when
present, otherwise leaves the map alone (it returns `false`, raising nothing). -/
def removeAtKey (m : WsList) (k : String) : WsList :=
  m.filter (fun p => p.1 != k)

/-- Model of `Ext.isEmpty` applied to a handle's `url`: the url value is a
string here, and `Ext.isEmpty` is true exactly on `""` for strings (its
`undefined`/`null` cases are the absent-url cases, likewise empty). -/
def extIsEmpty (s : String) : Bool :=
  s == ""

/-- Model of `register`: for each handle whose `url` is non-empty, inserts
`url -> handle` into `wsList`; handles with an empty url are skipped. The
single-object argument form is the one-element list. -/
def register (m : WsList) (websockets : List Handle) : WsList :=
  websockets.foldl (fun l ws => if extIsEmpty ws.url then l else hmAdd l ws.url ws) m

/-- Model of `contains`: key presence of the handle's url, not handle identity. -/
def contains (m : WsList) (websocket : Handle) : Bool :=
  containsKey m websocket.url

/-- Model of `get`: lookup of a url in `wsList`. -/
def get (m : WsList) (url : String) : Option Handle :=
  hmGet m url

/-- Model of `unregister`: for each handle whose url is a present key, removes
that entry; absent keys are ignored. -/
def unregister (m : WsList) (websockets : List Handle) : WsList :=
  websockets.foldl (fun l ws => if containsKey l ws.url then removeAtKey l ws.url else l) m

/-- One recorded `send (event, message)` call: the receiving handle together
with the event and message arguments. -/
abbrev SendCall := Handle × String × String

/-- Model of `broadcast`: iterates `wsList` and calls `send (event, message)`
on every handle whose `isReady ()` is true; the result is the ordered trace of
`send` calls. `wsList` itself is not touched. -/
def broadcast (m : WsList) (event message : String) : List SendCall :=
  m.foldl (fun calls p => if p.2.isReady then calls ++ [(p.2, event, message)] else calls) []

/-- The value passed as the `websockets` argument of `multicast`. The source
distinguishes `undefined`/`null` (`undef`), a single non-array object, which it
wraps into a one-element array (`single`), an array (`arr`), and any other
value, for which both `Ext.isObject` and `Ext.isArray` are false (`other`).
Array elements reach `Ext.util.HashMap.removeAtKey`, which uses them as
property keys, so an element is modelled by the string key it is coerced to
(a handle object passed by mistake coerces to a key such as
"[object Object]"). -/
inductive ExcludeArg where
  | undef
  | single (k : String)
  | arr (ks : List String)
  | other
  deriving DecidableEq

/-- The exclusion loop of `multicast`: `for (var i in websockets)
list.removeAtKey (websockets[i])`, where `list` aliases the live `wsList`. -/
def excludeKeys (ks : List String) (m : WsList) : WsList :=
  ks.foldl (fun l k => removeAtKey l k) m

/-- The array branch of `multicast`: `var list = me.wsList` aliases the live
map, so the exclusion loop calls `removeAtKey` on the production `wsList`
itself; afterwards the surviving ready handles each receive `send`. Returns
the post-call `wsList` together with the trace of `send` calls. -/
def mcastArr (m : WsList) (ks : List String) (event message : String) :
    WsList × List SendCall :=
  (excludeKeys ks m,
    (excludeKeys ks m).foldl
      (fun calls p => if p.2.isReady then calls ++ [(p.2, event, message)] else calls) [])

/-- Model of `multicast`: `undefined`/`null` exclusions delegate to
`broadcast` (the subsequent `Ext.isArray` test is then false, so nothing
more runs); a single object is wrapped into a one-element array; an array
drives `mcastArr`; any other value passes neither test and the call does
nothing. Returns the post-call `wsList` and the `send` trace. -/
def multicast (m : WsList) (websockets : ExcludeArg) (event message : String) :
    WsList × List SendCall :=
  match websockets with
  | .undef => (m, broadcast m event message)
  | .single k => mcastArr m [k] event message
  | .arr ks => mcastArr m ks event message
  | .other => (m, [])

/-- Model of `disconnect`: when the handle's url is a present key, calls
`disconnect ()` on the handle currently registered under that key (fetched
with `get`, not the argument itself) and removes the entry; otherwise does
nothing. Returns the post-call `wsList` and the trace of handles that
received `disconnect ()`. -/
def disconnect (m : WsList) (websocket : Handle) : WsList × List Handle :=
  if containsKey m websocket.url then
    (removeAtKey m websocket.url, (hmGet m websocket.url).toList)
  else (m, [])

/-- Model of `disconnectAll`: iterates `wsList` calling `disconnect ()` on
every registered handle; no entry is removed. Returns the (unchanged)
`wsList` and the trace of handles that received `disconnect ()`. -/
def disconnectAll (m : WsList) : WsList × List Handle :=
  (m, m.foldl (fun calls p => calls ++ [p.2]) [])

/-- Ready handle registered under "ws1" in the running examples. -/
def r1 : Handle := { url := "ws1", ready := true, tag := 1 }

/-- Ready handle registered under "ws2" in the running examples. -/
def r2 : Handle := { url := "ws2", ready := true, tag := 2 }

/-- Ready handle registered under "ws3" in the running examples. -/
def r3 : Handle := { url := "ws3", ready := true, tag := 3 }

/-- Not-ready handle registered under "ws2" in the broadcast example. -/
def r2off : Handle := { url := "ws2", ready := false, tag := 2 }

/-- Handle with an empty url, used in the empty-key examples. -/
def hEmpty : Handle := { url := "", ready := true, tag := 9 }

/-- A second handle sharing the key "ws2" with r2, used in the last-write-wins
example. -/
def a2 : Handle := { url := "ws2", ready := true, tag := 5 }

/-- Registry holding r1, r2, r3, all ready. -/
def reg123 : WsList := register [] [r1, r2, r3]

/-- Registry holding r1 (ready) and r2off (not ready). -/
def reg12off : WsList := register [] [r1, r2off]

/-- Registry holding r1 and r3, both ready. -/
def reg13 : WsList := register [] [r1, r3]

theorem sendFold_eq (m : WsList) (e msg : String) (acc : List SendCall) :
    m.foldl (fun calls p => if p.2.isReady then calls ++ [(p.2, e, msg)] else calls) acc
      = acc ++ (m.filter (fun p => p.2.isReady)).map (fun p => (p.2, e, msg)) := by
  induction m generalizing acc with
  | nil => simp
  | cons q t ih =>
    cases hq : q.2.isReady <;>
      simp [List.foldl_cons, List.filter_cons, hq, ih]

theorem broadcast_eq_filter (m : WsList) (e msg : String) :
    broadcast m e msg = (m.filter (fun p => p.2.isReady)).map (fun p => (p.2, e, msg)) := by
  unfold broadcast
  simpa using sendFold_eq m e msg []

theorem removeFold_eq (ks : List String) (m : WsList) :
    ks.foldl (fun l k => removeAtKey l k) m = m.filter (fun p => !(ks.contains p.1)) := by
  induction ks generalizing m with
  | nil => simp
  | cons k t ih =>
    rw [List.foldl_cons, ih]
    unfold removeAtKey
    rw [List.filter_filter]
    apply List.filter_congr
    intro p _
    rw [List.contains_cons, Bool.not_or, bne, Bool.and_comm]

theorem containsKey_eq_false_iff (m : WsList) (k : String) :
    containsKey m k = false ↔ ∀ p ∈ m, (p.1 == k) = false := by
  simp [containsKey, List.any_eq_false]

theorem removeAtKey_of_absent (m : WsList) (k : String) (h : containsKey m k = false) :
    removeAtKey m k = m := by
  unfold removeAtKey
  apply List.filter_eq_self.mpr
  intro p hp
  simpa using (containsKey_eq_false_iff m k).mp h p hp

theorem removeFold_of_absent (ks : List String) (m : WsList)
    (h : ∀ k ∈ ks, containsKey m k = false) :
    ks.foldl (fun l k => removeAtKey l k) m = m := by
  induction ks with
  | nil => rfl
  | cons k t ih =>
    rw [List.foldl_cons, removeAtKey_of_absent m k (h k (by simp))]
    exact ih fun k' hk' => h k' (by simp [hk'])

theorem containsKey_removeAtKey_self (m : WsList) (k : String) :
    containsKey (removeAtKey m k) k = false := by
  rw [containsKey_eq_false_iff]
  intro p hp
  have := (List.mem_filter.mp hp).2
  simpa [bne] using this

theorem hmGet_eq_none_of_absent (m : WsList) (k : String) (h : containsKey m k = false) :
    hmGet m k = none := by
  unfold hmGet
  have : m.find? (fun p => p.1 == k) = none :=
    List.find?_eq_none.mpr fun p hp => by
      simpa using (containsKey_eq_false_iff m k).mp h p hp
  simp [this]

theorem containsKey_of_hmGet_some (m : WsList) (k : String) (w : Handle)
    (h : hmGet m k = some w) : containsKey m k = true := by
  cases hc : containsKey m k
  · rw [hmGet_eq_none_of_absent m k hc] at h
    cases h
  · rfl

theorem find?_filter_ne (t : WsList) (k k' : String) (h : k' ≠ k) :
    (t.filter (fun p => p.1 != k)).find? (fun p => p.1 == k')
      = t.find? (fun p => p.1 == k') := by
  induction t with
  | nil => rfl
  | cons q t ih =>
    cases hq' : (q.1 == k')
    · cases hq : (q.1 == k)
      · rw [List.filter_cons_of_pos (by simp [bne, hq]),
          List.find?_cons_of_neg _ (by simp [hq']),
          List.find?_cons_of_neg _ (by simp [hq'])]
        exact ih
      · rw [List.filter_cons_of_neg (by simp [bne, hq]),
          List.find?_cons_of_neg _ (by simp [hq'])]
        exact ih
    · have hqk' : q.1 = k' := by simpa using hq'
      have hqk : (q.1 == k) = false := by
        rw [hqk']
        exact beq_eq_false_iff_ne.mpr h
      rw [List.filter_cons_of_pos (by simp [bne, hqk]),
        List.find?_cons_of_pos _ (by simp [hq']),
        List.find?_cons_of_pos _ (by simp [hq'])]

theorem hmGet_removeAtKey_other (m : WsList) (k k' : String) (h : k' ≠ k) :
    hmGet (removeAtKey m k) k' = hmGet m k' := by
  unfold hmGet removeAtKey
  rw [find?_filter_ne m k k' h]

theorem updEntry_of_hit (k : String) (v : Handle) (p : String × Handle)
    (h : (p.1 == k) = true) : updEntry k v p = (k, v) := by
  unfold updEntry
  rw [if_pos h]

theorem updEntry_of_miss (k : String) (v : Handle) (p : String × Handle)
    (h : (p.1 == k) = false) : updEntry k v p = p := by
  unfold updEntry
  rw [if_neg (by simp [h])]

theorem containsKey_hmAdd_self (m : WsList) (k : String) (v : Handle) :
    containsKey (hmAdd m k v) k = true := by
  unfold hmAdd
  cases h : containsKey m k
  · simp [h, containsKey, List.any_append]
  · rw [if_pos rfl]
    obtain ⟨p, hp, hpk⟩ := List.any_eq_true.mp h
    apply List.any_eq_true.mpr
    refine ⟨(k, v), ?_, by simp⟩
    have hmem := List.mem_map_of_mem (updEntry k v) hp
    rwa [updEntry_of_hit k v p hpk] at hmem

theorem find?_map_update (m : WsList) (k : String) (v : Handle)
    (h : containsKey m k = true) :
    (m.map (updEntry k v)).find? (fun p => p.1 == k) = some (k, v) := by
  induction m with
  | nil => simp [containsKey] at h
  | cons q t ih =>
    rw [List.map_cons]
    cases hq : (q.1 == k)
    · have h' : containsKey t k = true := by
        simpa [containsKey, hq] using h
      rw [updEntry_of_miss k v q hq, List.find?_cons_of_neg _ (by simp [hq])]
      exact ih h'
    · rw [updEntry_of_hit k v q hq]
      exact List.find?_cons_of_pos _ (by simp)

theorem hmGet_hmAdd_self (m : WsList) (k : String) (v : Handle) :
    hmGet (hmAdd m k v) k = some v := by
  unfold hmAdd hmGet
  cases h : containsKey m k
  · have hnone : m.find? (fun p => p.1 == k) = none :=
      List.find?_eq_none.mpr fun p hp => by
        simpa using (containsKey_eq_false_iff m k).mp h p hp
    simp [List.find?_append, hnone]
  · rw [if_pos rfl, find?_map_update m k v h]
    rfl

theorem keys_hmAdd (m : WsList) (k : String) (v : Handle) :
    (hmAdd m k v).map Prod.fst
      = if containsKey m k then m.map Prod.fst else m.map Prod.fst ++ [k] := by
  unfold hmAdd
  cases h : containsKey m k
  · rw [if_neg (by simp), if_neg (by simp)]
    simp
  · rw [if_pos rfl, if_pos rfl, List.map_map]
    apply List.map_congr_left
    intro p _
    cases hp : (p.1 == k)
    · show (updEntry k v p).1 = p.1
      rw [updEntry_of_miss k v p hp]
    · show (updEntry k v p).1 = p.1
      rw [updEntry_of_hit k v p hp]
      have : p.1 = k := by simpa using hp
      exact this.symm

theorem mem_keys_of_containsKey (m : WsList) (k : String) (h : containsKey m k = true) :
    k ∈ m.map Prod.fst := by
  obtain ⟨p, hp, hpk⟩ := List.any_eq_true.mp h
  have : p.1 = k := by simpa using hpk
  exact this ▸ List.mem_map_of_mem _ hp

theorem not_mem_keys_of_absent (m : WsList) (k : String) (h : containsKey m k = false) :
    k ∉ m.map Prod.fst := by
  intro hk
  obtain ⟨p, hp, hpk⟩ := List.mem_map.mp hk
  have := (containsKey_eq_false_iff m k).mp h p hp
  simp [hpk] at this

theorem length_filter_key_of_nodup (m : WsList) (k : String)
    (hnd : (m.map Prod.fst).Nodup) :
    (m.filter (fun p => p.1 == k)).length = if containsKey m k then 1 else 0 := by
  induction m with
  | nil => rfl
  | cons q t ih =>
    rw [List.map_cons, List.nodup_cons] at hnd
    cases hq : (q.1 == k)
    · rw [List.filter_cons_of_neg (by simp [hq]), ih hnd.2]
      have : containsKey (q :: t) k = containsKey t k := by
        simp [containsKey, List.any_cons, hq]
      rw [this]
    · have hqk : q.1 = k := by simpa using hq
      have hct : containsKey (q :: t) k = true := by
        simp [containsKey, List.any_cons, hq]
      rw [List.filter_cons_of_pos (by simp [hq]), hct]
      have hnil : t.filter (fun p => p.1 == k) = [] := by
        apply List.filter_eq_nil_iff.mpr
        intro p hp
        have : p.1 ≠ q.1 := by
          intro hcontra
          exact hnd.1 (hcontra ▸ List.mem_map_of_mem Prod.fst hp)
        simp [hqk ▸ this]
      simp [hnil]

theorem nodup_keys_hmAdd (m : WsList) (k : String) (v : Handle)
    (hnd : (m.map Prod.fst).Nodup) : ((hmAdd m k v).map Prod.fst).Nodup := by
  rw [keys_hmAdd]
  cases h : containsKey m k
  · rw [if_neg (by simp)]
    apply (List.perm_append_singleton k (m.map Prod.fst)).nodup_iff.mpr
    exact List.nodup_cons.mpr ⟨not_mem_keys_of_absent m k h, hnd⟩
  · rw [if_pos rfl]
    exact hnd

theorem allFold_eq (m : WsList) (acc : List Handle) :
    m.foldl (fun calls p => calls ++ [p.2]) acc = acc ++ m.map Prod.snd := by
  induction m generalizing acc with
  | nil => simp
  | cons q t ih => simp [List.foldl_cons, ih]

theorem excludeKeys_eq_filter (ks : List String) (m : WsList) :
    excludeKeys ks m = m.filter (fun p => !(ks.contains p.1)) :=
  removeFold_eq ks m

theorem excludeKeys_of_absent (ks : List String) (m : WsList)
    (h : ∀ k ∈ ks, containsKey m k = false) : excludeKeys ks m = m :=
  removeFold_of_absent ks m h

/-- C1: the claim states that exclusion is non-destructive, so that with r1,
r2, r3 registered and ready, multicast(["ws2"], "e", "m") leaves r2 present in
the registry. The code instead removes the excluded key from the live wsList:
after the call, contains(r2) is false, get("ws2") is undefined, and only the
r1 and r3 entries survive in the production registry. -/
theorem c1_multicast_exclusion_is_destructive :
    contains (multicast reg123 (ExcludeArg.arr ["ws2"]) "e" "m").1 r2 = false
      ∧ get (multicast reg123 (ExcludeArg.arr ["ws2"]) "e" "m").1 "ws2" = none
      ∧ (multicast reg123 (ExcludeArg.arr ["ws2"]) "e" "m").1
          = [("ws1", r1), ("ws3", r3)] := by
  refine ⟨by decide, by decide, by decide⟩

/-- C2: multicast with an exclusion array of keys calls send(event, message)
exactly once on each registered entry whose key is not excluded and whose
handle is ready, and on no other handle; concretely, excluding key "ws2" from
the registry holding ready r1, r2, r3 sends to r1 and r3 only. -/
theorem c2_multicast_sends_to_nonexcluded_ready :
    (∀ (m : WsList) (ks : List String) (e msg : String),
        (multicast m (ExcludeArg.arr ks) e msg).2
          = (m.filter (fun p => !(ks.contains p.1) && p.2.isReady)).map
              (fun p => (p.2, e, msg)))
      ∧ (multicast reg123 (ExcludeArg.arr ["ws2"]) "e" "m").2
          = [(r1, "e", "m"), (r3, "e", "m")] := by
  constructor
  · intro m ks e msg
    show (mcastArr m ks e msg).2 = _
    unfold mcastArr
    rw [excludeKeys_eq_filter, sendFold_eq, List.nil_append, List.filter_filter]
    dsimp only
    congr 1
    apply List.filter_congr
    intro p _
    exact Bool.and_comm _ _
  · decide

/-- C3: broadcast(event, message) calls send(event, message) exactly once on
every registered handle whose isReady() is true and on no other handle;
concretely, with r1 ready and r2off not ready registered, exactly one send
happens, on r1. -/
theorem c3_broadcast_sends_exactly_to_ready :
    (∀ (m : WsList) (e msg : String),
        broadcast m e msg
          = (m.filter (fun p => p.2.isReady)).map (fun p => (p.2, e, msg)))
      ∧ broadcast reg12off "e" "m" = [(r1, "e", "m")] :=
  ⟨broadcast_eq_filter, by decide⟩

/-- C4: registering a handle whose key is empty leaves the registry mapping
unchanged, also when the handle sits inside a longer registered sequence, and
contains(h) is false afterwards (the registry never holds an empty key, since
register is the only insertion point and it skips empty keys). -/
theorem c4_register_skips_empty_key (m : WsList) (h : Handle)
    (pre post : List Handle) (hk : h.url = "")
    (hm : containsKey m "" = false) :
    register m [h] = m
      ∧ register m (pre ++ h :: post) = register m (pre ++ post)
      ∧ contains (register m [h]) h = false := by
  have hskip : ∀ l : WsList, (if extIsEmpty h.url then l else hmAdd l h.url h) = l := by
    intro l
    rw [if_pos (by simp [extIsEmpty, hk])]
  have h1 : register m [h] = m := by
    simp only [register, List.foldl_cons, List.foldl_nil]
    exact hskip m
  refine ⟨h1, ?_, ?_⟩
  · simp only [register, List.foldl_append, List.foldl_cons, hskip]
  · rw [h1]
    unfold contains
    rw [hk]
    exact hm

/-- C4 witness: the theorem applied to the registry holding r1 and r3 and the
empty-key handle. -/
theorem c4_witness :
    register reg13 [hEmpty] = reg13
      ∧ register reg13 ([r1] ++ hEmpty :: [r3]) = register reg13 ([r1] ++ [r3])
      ∧ contains (register reg13 [hEmpty]) hEmpty = false :=
  c4_register_skips_empty_key reg13 hEmpty [r1] [r3] rfl (by decide)

/-- C5: registering two handles with the same non-empty key keeps exactly one
entry for that key and get returns the second handle (last write wins). -/
theorem c5_register_last_write_wins (m : WsList) (a b : Handle)
    (hab : a.url = b.url) (hne : a.url ≠ "")
    (hnd : (m.map Prod.fst).Nodup) :
    get (register m [a, b]) a.url = some b
      ∧ ((register m [a, b]).filter (fun p => p.1 == a.url)).length = 1 := by
  have hnea : extIsEmpty a.url = false := by simp [extIsEmpty, hne]
  have hneb : extIsEmpty b.url = false := by
    rw [← hab]
    exact hnea
  have hreg : register m [a, b] = hmAdd (hmAdd m a.url a) a.url b := by
    simp only [register, List.foldl_cons, List.foldl_nil]
    rw [if_neg (by simp [hneb]), if_neg (by simp [hnea]), hab]
  have hnd2 : ((hmAdd (hmAdd m a.url a) a.url b).map Prod.fst).Nodup :=
    nodup_keys_hmAdd _ _ _ (nodup_keys_hmAdd m a.url a hnd)
  constructor
  · rw [hreg]
    unfold get
    exact hmGet_hmAdd_self _ _ _
  · rw [hreg, length_filter_key_of_nodup _ _ hnd2, containsKey_hmAdd_self,
      if_pos rfl]

/-- C5 witness: the theorem applied to the registry holding r1 and r3 and the
two handles a2, r2 sharing key "ws2". -/
theorem c5_witness :
    get (register reg13 [a2, r2]) a2.url = some r2
      ∧ ((register reg13 [a2, r2]).filter (fun p => p.1 == a2.url)).length = 1 :=
  c5_register_last_write_wins reg13 a2 r2 rfl (by decide) (by decide)

/-- C6: for a handle with a non-empty key, register makes contains true and a
subsequent unregister makes contains false, from any starting registry. -/
theorem c6_register_unregister_roundtrip (m : WsList) (h : Handle)
    (hne : h.url ≠ "") :
    contains (register m [h]) h = true
      ∧ contains (unregister (register m [h]) [h]) h = false := by
  have hreg : register m [h] = hmAdd m h.url h := by
    simp only [register, List.foldl_cons, List.foldl_nil]
    rw [if_neg (by simp [extIsEmpty, hne])]
  have hc : containsKey (register m [h]) h.url = true := by
    rw [hreg]
    exact containsKey_hmAdd_self m h.url h
  refine ⟨hc, ?_⟩
  simp only [unregister, List.foldl_cons, List.foldl_nil]
  rw [if_pos hc]
  unfold contains
  exact containsKey_removeAtKey_self _ _

/-- C6 witness: the theorem applied to the empty registry and r1. -/
theorem c6_witness :
    contains (register [] [r1]) r1 = true
      ∧ contains (unregister (register [] [r1]) [r1]) r1 = false :=
  c6_register_unregister_roundtrip [] r1 (by decide)

/-- C7: multicast with an absent (undefined/null) exclusion argument or with
the empty array performs exactly the send calls of broadcast on the same
registry state and leaves the registry unchanged. -/
theorem c7_multicast_no_exclusions_is_broadcast (m : WsList) (e msg : String) :
    multicast m ExcludeArg.undef e msg = (m, broadcast m e msg)
      ∧ multicast m (ExcludeArg.arr []) e msg = (m, broadcast m e msg) :=
  ⟨rfl, rfl⟩

/-- C8: disconnectAll calls disconnect() exactly once on every registered
handle, removes no entry, and every previously registered key still resolves
to its handle afterwards. -/
theorem c8_disconnectAll_keeps_registry (m : WsList) :
    (disconnectAll m).2 = m.map Prod.snd
      ∧ (disconnectAll m).1 = m
      ∧ ∀ k, get (disconnectAll m).1 k = get m k := by
  refine ⟨?_, rfl, fun k => rfl⟩
  show m.foldl (fun calls p => calls ++ [p.2]) [] = m.map Prod.snd
  simpa using allFold_eq m []

/-- C9: disconnect(h) is a no-op when the key of h is absent; when the key is
present, the handle currently registered under it (w, not necessarily h)
receives disconnect(), that entry is removed, and every other key is
untouched. -/
theorem c9_disconnect_present_or_absent (m : WsList) (h : Handle) :
    (containsKey m h.url = false → disconnect m h = (m, []))
      ∧ (∀ w, hmGet m h.url = some w →
          (disconnect m h).2 = [w]
            ∧ get (disconnect m h).1 h.url = none
            ∧ ∀ k, k ≠ h.url → get (disconnect m h).1 k = get m k) := by
  constructor
  · intro habs
    unfold disconnect
    rw [if_neg (by simp [habs])]
  · intro w hw
    have hc : containsKey m h.url = true := containsKey_of_hmGet_some m h.url w hw
    have hd : disconnect m h = (removeAtKey m h.url, [w]) := by
      unfold disconnect
      rw [if_pos hc, hw]
      rfl
    refine ⟨by rw [hd], ?_, ?_⟩
    · rw [hd]
      show get (removeAtKey m h.url) h.url = none
      unfold get
      exact hmGet_eq_none_of_absent _ _ (containsKey_removeAtKey_self m h.url)
    · intro k hk
      rw [hd]
      show get (removeAtKey m h.url) k = get m k
      unfold get
      exact hmGet_removeAtKey_other m h.url k hk

/-- C9 witness: the theorem applied to the empty registry (absent key, no-op)
and to the registry holding r1, r2, r3 with the registered handle r2. -/
theorem c9_witness :
    disconnect ([] : WsList) r1 = ([], [])
      ∧ (disconnect reg123 r2).2 = [r2]
      ∧ get (disconnect reg123 r2).1 "ws2" = none
      ∧ get (disconnect reg123 r2).1 "ws1" = get reg123 "ws1" := by
  refine ⟨(c9_disconnect_present_or_absent [] r1).1 (by decide), ?_, ?_, ?_⟩
  · exact ((c9_disconnect_present_or_absent reg123 r2).2 r2 (by decide)).1
  · exact ((c9_disconnect_present_or_absent reg123 r2).2 r2 (by decide)).2.1
  · exact ((c9_disconnect_present_or_absent reg123 r2).2 r2 (by decide)).2.2 "ws1"
      (by decide)

/-- C10: a non-empty exclusion array none of whose elements matches a
registered key (for example handle objects coerced to "[object Object]")
removes nothing from the registry and causes exactly the send calls of
broadcast, reaching every ready registered handle. -/
theorem c10_multicast_unmatched_exclusions_broadcast (m : WsList)
    (ks : List String) (e msg : String) (_hne : ks ≠ [])
    (habs : ∀ k ∈ ks, containsKey m k = false) :
    multicast m (ExcludeArg.arr ks) e msg = (m, broadcast m e msg) := by
  show mcastArr m ks e msg = _
  unfold mcastArr
  rw [excludeKeys_of_absent ks m habs]
  rfl

/-- C10 witness: the theorem applied to the registry holding r1, r2, r3 and
the exclusion array holding the coerced key of a handle object. -/
theorem c10_witness :
    multicast reg123 (ExcludeArg.arr ["[object Object]"]) "e" "m"
      = (reg123, broadcast reg123 "e" "m") :=
  c10_multicast_unmatched_exclusions_broadcast reg123 ["[object Object]"] "e" "m"
    (by decide) (by decide)

end ExtWS
